import Mathlib

/-!
Shallow embedding of `src/task_package/zad.py`: summation of the series
S = Σ cos(n·x)/n with an epsilon cutoff, a single-threaded variant, a
partitioned multi-threaded variant, a thread-pool variant, and the
closed-form control value y = −ln(2·sin(x/2)).

Python floats are modelled by real numbers; Python exceptions
(ZeroDivisionError for a term at n = 0 or integer division by 0,
IndexError for an out-of-range results slot, ValueError from
ThreadPoolExecutor for a nonpositive worker count) are modelled by
Option, with none standing for a raised exception.  The worker threads
write to pairwise disjoint slots of the results list and are joined
before the results are read, so the concurrent execution is modelled by
running the workers sequentially in chunk-index order.
-/

/-- One series term cos(n·x)/n, the body of every summation loop
(`math.cos(n * x) / n`).  In the loops below it is only evaluated at
n ≠ 0; the n = 0 division is modelled as an error at the call sites
that can reach it. -/
noncomputable def seriesTerm (x : ℝ) (n : ℤ) : ℝ :=
  Real.cos (n * x) / n

/-- The summation loop shared by `calculate_partial_sum` and the
`worker` closure of `calculate_with_threadpool`:
`while n <= end_n: term = cos(n*x)/n; if abs(term) < epsilon: break;
acc += term; n += 1`.  Evaluating the term at n = 0 raises
ZeroDivisionError, modelled by none. -/
noncomputable def sumRangeLoop (x ε : ℝ) (end_n : ℤ) (n : ℤ) (acc : ℝ) :
    Option ℝ :=
  if h : n ≤ end_n then
    if n = 0 then none
    else if |seriesTerm x n| < ε then some acc
    else sumRangeLoop x ε end_n (n + 1) (acc + seriesTerm x n)
  else some acc
termination_by (end_n + 1 - n).toNat
decreasing_by simp_wf; omega

/-- The same loop without the error case: its value whenever no term is
evaluated at n = 0 (in the program every loop starts at n ≥ 1). -/
noncomputable def sumRangeVal (x ε : ℝ) (end_n : ℤ) (n : ℤ) (acc : ℝ) : ℝ :=
  if h : n ≤ end_n then
    if |seriesTerm x n| < ε then acc
    else sumRangeVal x ε end_n (n + 1) (acc + seriesTerm x n)
  else acc
termination_by (end_n + 1 - n).toNat
decreasing_by simp_wf; omega

/-- `calculate_partial_sum(x, start_n, end_n, epsilon, results_list, idx)`:
runs the range summation loop, stores the result at `results_list[idx]`
and returns it.  The returned pair is (returned value, results list after
the store); none models a raised exception (ZeroDivisionError inside the
loop, or IndexError when idx is not a valid slot). -/
noncomputable def calculate_partial_sum (x : ℝ) (start_n end_n : ℤ) (ε : ℝ)
    (results_list : List ℝ) (idx : ℕ) : Option (ℝ × List ℝ) :=
  match sumRangeLoop x ε end_n start_n 0 with
  | none => none
  | some s =>
    if idx < results_list.length then some (s, results_list.set idx s)
    else none

/-- The unbounded single-threaded loop of
`calculate_series_sum_single_threaded`, with explicit fuel standing for
the `while True`: none models a run that needs more iterations than the
given fuel.  The loop is only entered at n = 1 and n only grows, so no
term is evaluated at n = 0. -/
noncomputable def singleLoop (x ε : ℝ) : ℕ → ℕ → ℝ → Option (ℝ × ℕ)
  | 0, _, _ => none
  | fuel + 1, n, acc =>
    if |seriesTerm x n| < ε then some (acc, n)
    else singleLoop x ε fuel (n + 1) (acc + seriesTerm x n)

/-- `calculate_series_sum_single_threaded(x, epsilon)`: starts at n = 1
with total 0 and returns (total, n) at the first n whose term falls
below epsilon.  The fuel ⌊1/ε⌋₊ + 2 is an upper bound on the iterations
actually needed (the loop stops at the latest once n > 1/ε, shown in
the lemmas below), so for every ε > 0 the Python run and this model
agree. -/
noncomputable def calculate_series_sum_single_threaded (x ε : ℝ) :
    Option (ℝ × ℕ) :=
  singleLoop x ε (Nat.floor (1 / ε) + 2) 1 0

/-- `max_n = int(math.ceil(1 / epsilon)) + 100`. -/
noncomputable def seriesMaxN (ε : ℝ) : ℤ :=
  ⌈1 / ε⌉ + 100

/-- `start_n = i * chunk_size + 1` for chunk number i. -/
def chunkStart (chunk_size : ℤ) (i : ℕ) : ℤ :=
  i * chunk_size + 1

/-- `end_n = (i + 1) * chunk_size if i < num_threads - 1 else max_n`. -/
def chunkEnd (chunk_size max_n num_threads : ℤ) (i : ℕ) : ℤ :=
  if (i : ℤ) < num_threads - 1 then (i + 1) * chunk_size else max_n

/-- The thread loop of `calculate_series_sum_multi_threaded`: for each
chunk index in the given list, run `calculate_partial_sum` against the
shared results list.  The threads write to pairwise disjoint slots and
are all joined before the list is read, so running them in index order
is a faithful linearisation. -/
noncomputable def runThreads (x ε : ℝ) (chunk_size max_n num_threads : ℤ) :
    List ℕ → List ℝ → Option (List ℝ)
  | [], results => some results
  | i :: is, results =>
    match calculate_partial_sum x (chunkStart chunk_size i)
        (chunkEnd chunk_size max_n num_threads i) ε results i with
    | none => none
    | some (_, results₁) => runThreads x ε chunk_size max_n num_threads is results₁

/-- `calculate_series_sum_multi_threaded(x, epsilon, num_threads)`:
splits [1, max_n] into num_threads chunks, runs one worker per chunk
into `results = [0.0] * num_threads`, and returns `sum(results)`.
For num_threads = 0 the chunk-size division raises ZeroDivisionError
(none); for num_threads < 0 both `range(num_threads)` and
`[0.0] * num_threads` are empty, so the call returns sum([]) = 0. -/
noncomputable def calculate_series_sum_multi_threaded (x ε : ℝ)
    (num_threads : ℤ) : Option ℝ :=
  if num_threads = 0 then none
  else
    (runThreads x ε (Int.fdiv (seriesMaxN ε) num_threads) (seriesMaxN ε)
        num_threads (List.range num_threads.toNat)
        (List.replicate num_threads.toNat 0)).map List.sum

/-- The `worker` closure of `calculate_with_threadpool`: the same range
summation loop, returning its value instead of writing it to a list. -/
noncomputable def worker (x ε : ℝ) (start_n end_n : ℤ) : Option ℝ :=
  sumRangeLoop x ε end_n start_n 0

/-- Collecting `future.result()` of every submitted chunk in submission
order; a worker failure propagates (none). -/
noncomputable def poolResults (x ε : ℝ) (chunk_size max_n num_threads : ℤ) :
    List ℕ → Option (List ℝ)
  | [] => some []
  | i :: is =>
    match worker x ε (chunkStart chunk_size i)
        (chunkEnd chunk_size max_n num_threads i),
        poolResults x ε chunk_size max_n num_threads is with
    | some v, some vs => some (v :: vs)
    | _, _ => none

/-- `calculate_with_threadpool(x, epsilon, num_threads)`: same chunking,
executed over a ThreadPoolExecutor and combined with
`sum(future.result() for future in futures)`.  num_threads = 0 raises
ZeroDivisionError at the chunk-size division; num_threads < 0 raises
ValueError when the executor is created (max_workers must be positive). -/
noncomputable def calculate_with_threadpool (x ε : ℝ) (num_threads : ℤ) :
    Option ℝ :=
  if num_threads = 0 then none
  else if num_threads < 0 then none
  else
    (poolResults x ε (Int.fdiv (seriesMaxN ε) num_threads) (seriesMaxN ε)
        num_threads (List.range num_threads.toNat)).map List.sum

/-- `get_control_value(x) = -math.log(2 * math.sin(x / 2))`:
`math.log` raises ValueError on a nonpositive argument (none). -/
noncomputable def get_control_value (x : ℝ) : Option ℝ :=
  if 2 * Real.sin (x / 2) ≤ 0 then none
  else some (-Real.log (2 * Real.sin (x / 2)))

/-- The default relative tolerance of `math.isclose`. -/
noncomputable def iscloseRelTol : ℝ :=
  1 / 10 ^ 9

/-- `math.isclose(a, b)` with the default tolerances:
`abs(a-b) <= max(rel_tol * max(abs(a), abs(b)), abs_tol)` with
rel_tol = 1e-9 and abs_tol = 0. -/
noncomputable def isclose (a b : ℝ) : Prop :=
  |a - b| ≤ max (iscloseRelTol * max |a| |b|) 0

open Classical in
/-- `calculate_analytical_sum(x)`: −ln 2 when `math.isclose(x, math.pi)`,
otherwise `get_control_value(x)`. -/
noncomputable def calculate_analytical_sum (x : ℝ) : Option ℝ :=
  if isclose x Real.pi then some (-Real.log 2)
  else get_control_value x

/-- The index at which the single-threaded loop stops: the least n ≥ 1
whose term falls below ε. -/
noncomputable def termsCount (x ε : ℝ) : ℕ :=
  sInf {n : ℕ | 1 ≤ n ∧ |seriesTerm x n| < ε}

/-! ### Basic facts about the series term -/

lemma seriesTerm_abs_le (x : ℝ) (n : ℤ) (hn : 1 ≤ n) :
    |seriesTerm x n| ≤ 1 / (n : ℝ) := by
  have hn0 : (0 : ℝ) < (n : ℝ) := by exact_mod_cast hn
  rw [seriesTerm, abs_div, abs_of_pos hn0]
  gcongr
  exact Real.abs_cos_le_one _

lemma term_lt_of_big (x : ℝ) {ε : ℝ} (hε : 0 < ε) (n : ℕ)
    (hn : ⌊1 / ε⌋₊ + 1 ≤ n) : |seriesTerm x n| < ε := by
  have hn1 : 1 ≤ (n : ℤ) := by exact_mod_cast Nat.one_le_iff_ne_zero.mpr (by omega)
  have h2 := seriesTerm_abs_le x n hn1
  have h3 : 1 / ε < (n : ℝ) := by
    have h4 := Nat.lt_floor_add_one (1 / ε)
    have h5 : ((⌊1 / ε⌋₊ + 1 : ℕ) : ℝ) ≤ (n : ℝ) := by exact_mod_cast hn
    push_cast at h5
    linarith
  have hnpos : (0 : ℝ) < (n : ℝ) := lt_trans (one_div_pos.mpr hε) h3
  have h6 : 1 / (n : ℝ) < ε := by
    rw [div_lt_iff hnpos]
    have h7 : 1 < (n : ℝ) * ε := (div_lt_iff hε).mp h3
    nlinarith
  calc |seriesTerm x (n : ℤ)| ≤ 1 / ((n : ℤ) : ℝ) := h2
    _ = 1 / (n : ℝ) := by push_cast; rfl
    _ < ε := h6

/-! ### The bounded range-summation loop -/

lemma sum_Ico_bot (a b : ℤ) (h : a < b) (f : ℤ → ℝ) :
    ∑ m ∈ Finset.Ico a b, f m = f a + ∑ m ∈ Finset.Ico (a + 1) b, f m := by
  have hins : Finset.Ico a b = insert a (Finset.Ico (a + 1) b) := by
    ext m
    simp only [Finset.mem_Ico, Finset.mem_insert]
    omega
  rw [hins, Finset.sum_insert (by simp only [Finset.mem_Ico]; omega)]

lemma sumRangeVal_spec (x ε : ℝ) (e : ℤ) (n : ℤ) (acc : ℝ) :
    ∃ N : ℤ, n ≤ N ∧ (e < N ∨ |seriesTerm x N| < ε) ∧
      (∀ m : ℤ, n ≤ m → m < N → m ≤ e ∧ ε ≤ |seriesTerm x m|) ∧
      sumRangeVal x ε e n acc = acc + ∑ m ∈ Finset.Ico n N, seriesTerm x m := by
  by_cases h : n ≤ e
  · by_cases ht : |seriesTerm x n| < ε
    · refine ⟨n, le_refl n, Or.inr ht, fun m h1 h2 => absurd (lt_of_le_of_lt h1 h2) (lt_irrefl n), ?_⟩
      rw [sumRangeVal]
      simp [h, ht]
    · obtain ⟨N, hN1, hN2, hN3, hN4⟩ := sumRangeVal_spec x ε e (n + 1) (acc + seriesTerm x n)
      refine ⟨N, by omega, hN2, ?_, ?_⟩
      · intro m h1 h2
        rcases eq_or_lt_of_le h1 with rfl | hlt
        · exact ⟨h, not_lt.mp ht⟩
        · exact hN3 m (by omega) h2
      · rw [sumRangeVal]
        simp only [h, ht, dite_true, if_false, dif_pos]
        rw [hN4, sum_Ico_bot n N (by omega)]
        ring
  · refine ⟨n, le_refl n, Or.inl (by omega),
      fun m h1 h2 => absurd (lt_of_le_of_lt h1 h2) (lt_irrefl n), ?_⟩
    rw [sumRangeVal]
    simp [h]
termination_by (e + 1 - n).toNat
decreasing_by simp_wf; omega

lemma sumRangeLoop_eq_val (x ε : ℝ) (e : ℤ) (n : ℤ) (acc : ℝ) (hn : 1 ≤ n) :
    sumRangeLoop x ε e n acc = some (sumRangeVal x ε e n acc) := by
  by_cases h : n ≤ e
  · by_cases ht : |seriesTerm x n| < ε
    · rw [sumRangeLoop, sumRangeVal]
      simp [h, ht, show n ≠ 0 by omega]
    · rw [sumRangeLoop, sumRangeVal]
      simp only [h, ht, dite_true, dif_pos, if_false,
        if_neg (show ¬ n = 0 by omega)]
      exact sumRangeLoop_eq_val x ε e (n + 1) (acc + seriesTerm x n) (by omega)
  · rw [sumRangeLoop, sumRangeVal]
    simp [h]
termination_by (e + 1 - n).toNat
decreasing_by simp_wf; omega

lemma sumRangeLoop_of_gt (x ε : ℝ) (e : ℤ) (n : ℤ) (acc : ℝ) (h : e < n) :
    sumRangeLoop x ε e n acc = some acc := by
  rw [sumRangeLoop]
  simp [not_le.mpr h]

/-! ### The single-threaded loop -/

lemma singleLoop_eq (x ε : ℝ) (N : ℕ) (hN : |seriesTerm x N| < ε) :
    ∀ (fuel n : ℕ) (acc : ℝ), n ≤ N → N < n + fuel →
      (∀ m : ℕ, n ≤ m → m < N → ε ≤ |seriesTerm x m|) →
      singleLoop x ε fuel n acc =
        some (acc + ∑ m ∈ Finset.Ico n N, seriesTerm x m, N) := by
  intro fuel
  induction fuel with
  | zero =>
    intro n acc h1 h2 _
    omega
  | succ fuel ih =>
    intro n acc h1 h2 hmin
    rcases eq_or_lt_of_le h1 with rfl | hlt
    · rw [singleLoop]
      simp [hN]
    · have hterm : ¬ |seriesTerm x n| < ε := not_lt.mpr (hmin n le_rfl hlt)
      rw [singleLoop]
      simp only [hterm, if_false]
      rw [ih (n + 1) (acc + seriesTerm x n) hlt (by omega)
        (fun m hm1 hm2 => hmin m (by omega) hm2)]
      rw [Finset.sum_eq_sum_Ico_succ_bot hlt]
      ring_nf

lemma single_threaded_spec (x : ℝ) {ε : ℝ} (hε : 0 < ε) :
    1 ≤ termsCount x ε ∧ |seriesTerm x (termsCount x ε)| < ε ∧
      (∀ m : ℕ, 1 ≤ m → m < termsCount x ε → ε ≤ |seriesTerm x m|) ∧
      calculate_series_sum_single_threaded x ε =
        some (∑ m ∈ Finset.Ico 1 (termsCount x ε), seriesTerm x m,
          termsCount x ε) := by
  have hfloor : (⌊1 / ε⌋₊ + 1) ∈ {n : ℕ | 1 ≤ n ∧ |seriesTerm x n| < ε} :=
    ⟨by omega, term_lt_of_big x hε _ le_rfl⟩
  have hne : {n : ℕ | 1 ≤ n ∧ |seriesTerm x n| < ε}.Nonempty := ⟨_, hfloor⟩
  have hNdef : termsCount x ε =
      sInf {n : ℕ | 1 ≤ n ∧ |seriesTerm x n| < ε} := rfl
  have hmem : termsCount x ε ∈ {n : ℕ | 1 ≤ n ∧ |seriesTerm x n| < ε} := by
    rw [hNdef]
    exact Nat.sInf_mem hne
  obtain ⟨hN1, hN2⟩ := hmem
  have hmin : ∀ m : ℕ, 1 ≤ m → m < termsCount x ε → ε ≤ |seriesTerm x m| := by
    intro m h1 h2
    by_contra hc
    push_neg at hc
    have hm : m ∈ {n : ℕ | 1 ≤ n ∧ |seriesTerm x n| < ε} := ⟨h1, hc⟩
    have hle := Nat.sInf_le hm
    rw [← hNdef] at hle
    omega
  have hbound : termsCount x ε ≤ ⌊1 / ε⌋₊ + 1 := by
    rw [hNdef]
    exact Nat.sInf_le hfloor
  refine ⟨hN1, hN2, hmin, ?_⟩
  rw [calculate_series_sum_single_threaded,
    singleLoop_eq x ε (termsCount x ε) hN2 (⌊1 / ε⌋₊ + 2) 1 0 hN1 (by omega)
      (fun m h1 h2 => hmin m h1 h2), zero_add]

/-- C1: for every real x and ε > 0, the single-threaded summation stops
at the least index tc ≥ 1 whose term falls below ε in absolute value,
returning that tc together with the sum of the terms at indices
1 .. tc − 1 (the failing term itself is not added), and tc > 0. -/
theorem claim_C1_single_threaded (x : ℝ) {ε : ℝ} (hε : 0 < ε) :
    ∃ tc : ℕ,
      calculate_series_sum_single_threaded x ε =
        some (∑ m ∈ Finset.Ico 1 tc, seriesTerm x m, tc) ∧
      0 < tc ∧ |seriesTerm x tc| < ε ∧
      ∀ m : ℕ, 1 ≤ m → m < tc → ε ≤ |seriesTerm x m| := by
  obtain ⟨h1, h2, h3, h4⟩ := single_threaded_spec x hε
  exact ⟨termsCount x ε, h4, h1, h2, h3⟩

theorem claim_C1_witness :
    0 < (2 : ℝ) ∧ ∃ tc : ℕ,
      calculate_series_sum_single_threaded 0 2 =
        some (∑ m ∈ Finset.Ico 1 tc, seriesTerm 0 m, tc) ∧
      0 < tc ∧ |seriesTerm 0 tc| < 2 ∧
      ∀ m : ℕ, 1 ≤ m → m < tc → 2 ≤ |seriesTerm 0 m| :=
  ⟨two_pos, claim_C1_single_threaded 0 two_pos⟩

/-- C5: for every real x and ε > 0 the single-threaded loop terminates:
an index n ≥ 1 with |cos(n·x)/n| < ε is reached (because
|cos(n·x)/n| ≤ 1/n), and the run produces a result rather than running
out of fuel. -/
theorem claim_C5_termination (x : ℝ) {ε : ℝ} (hε : 0 < ε) :
    (∃ n : ℕ, 1 ≤ n ∧ |seriesTerm x n| < ε) ∧
      ∃ r : ℝ × ℕ, calculate_series_sum_single_threaded x ε = some r := by
  obtain ⟨h1, h2, _, h4⟩ := single_threaded_spec x hε
  exact ⟨⟨termsCount x ε, h1, h2⟩, ⟨_, h4⟩⟩

theorem claim_C5_witness :
    0 < (1 : ℝ) ∧ ((∃ n : ℕ, 1 ≤ n ∧ |seriesTerm 0 n| < 1) ∧
      ∃ r : ℝ × ℕ, calculate_series_sum_single_threaded 0 1 = some r) :=
  ⟨one_pos, claim_C5_termination 0 one_pos⟩

/-- C2: for start_n ≥ 1 the partial-sum loop accumulates terms from
start_n upward and stops at the first index N that either leaves the
range (N > end_n) or has |term| < ε, without adding the stopping term;
the returned and stored value is the sum over [start_n, N), every index
before N lies in the range and fails the threshold, and if already the
first term satisfies it the value is 0. -/
theorem claim_C2_partial_sum (x : ℝ) (start_n end_n : ℤ) {ε : ℝ}
    (hε : 0 < ε) (l : List ℝ) (idx : ℕ) (hs : 1 ≤ start_n)
    (hidx : idx < l.length) :
    ∃ (N : ℤ) (S : ℝ),
      start_n ≤ N ∧ (end_n < N ∨ |seriesTerm x N| < ε) ∧
      (∀ m : ℤ, start_n ≤ m → m < N → m ≤ end_n ∧ ε ≤ |seriesTerm x m|) ∧
      S = ∑ m ∈ Finset.Ico start_n N, seriesTerm x m ∧
      calculate_partial_sum x start_n end_n ε l idx = some (S, l.set idx S) ∧
      (|seriesTerm x start_n| < ε → S = 0) := by
  obtain ⟨N, h1, h2, h3, h4⟩ := sumRangeVal_spec x ε end_n start_n 0
  rw [zero_add] at h4
  refine ⟨N, sumRangeVal x ε end_n start_n 0, h1, h2, h3, h4, ?_, ?_⟩
  · unfold calculate_partial_sum
    rw [sumRangeLoop_eq_val x ε end_n start_n 0 hs]
    simp [hidx]
  · intro hfirst
    have hNs : N = start_n := by
      by_contra hne
      exact absurd hfirst (not_lt.mpr (h3 start_n le_rfl (by omega)).2)
    rw [h4, hNs, Finset.Ico_self, Finset.sum_empty]

theorem claim_C2_witness :
    (0 < (1 : ℝ) ∧ 1 ≤ (1 : ℤ) ∧ 0 < [(0 : ℝ)].length) ∧
      ∃ (N : ℤ) (S : ℝ),
        1 ≤ N ∧ ((0 : ℤ) < N ∨ |seriesTerm 0 N| < 1) ∧
        (∀ m : ℤ, 1 ≤ m → m < N → m ≤ 0 ∧ 1 ≤ |seriesTerm 0 m|) ∧
        S = ∑ m ∈ Finset.Ico (1 : ℤ) N, seriesTerm 0 m ∧
        calculate_partial_sum 0 1 0 1 [(0 : ℝ)] 0 =
          some (S, List.set [(0 : ℝ)] 0 S) ∧
        (|seriesTerm 0 1| < 1 → S = 0) :=
  ⟨⟨one_pos, le_refl 1, by simp⟩,
    claim_C2_partial_sum 0 1 0 one_pos [(0 : ℝ)] 0 (le_refl 1) (by simp)⟩

/-- C9 as stated is violated at start_n = 0: the loop evaluates
cos(0·x)/0, which in Python raises ZeroDivisionError, so nothing is
stored or returned even though idx is a valid slot. -/
theorem claim_C9_counterexample :
    calculate_partial_sum 0 0 0 1 [(0 : ℝ)] 0 = none := by
  unfold calculate_partial_sum
  rw [sumRangeLoop]
  norm_num

/-- C9 (amended with start_n ≥ 1, which keeps every loop index
nonzero): the call stores its computed value at the valid slot idx,
returns that same value, and leaves every other position of the
results list unchanged. -/
theorem claim_C9_frame (x : ℝ) (start_n end_n : ℤ) (ε : ℝ) (l : List ℝ)
    (idx : ℕ) (hidx : idx < l.length) (hs : 1 ≤ start_n) :
    ∃ v : ℝ,
      calculate_partial_sum x start_n end_n ε l idx = some (v, l.set idx v) ∧
      ∀ j : ℕ, j ≠ idx → (l.set idx v)[j]? = l[j]? := by
  refine ⟨sumRangeVal x ε end_n start_n 0, ?_, ?_⟩
  · unfold calculate_partial_sum
    rw [sumRangeLoop_eq_val x ε end_n start_n 0 hs]
    simp [hidx]
  · intro j hj
    exact List.getElem?_set_ne (Ne.symm hj)

theorem claim_C9_witness :
    (0 < [(3 : ℝ), 4].length ∧ 1 ≤ (1 : ℤ)) ∧
      ∃ v : ℝ,
        calculate_partial_sum 0 1 0 1 [(3 : ℝ), 4] 0 =
          some (v, List.set [(3 : ℝ), 4] 0 v) ∧
        ∀ j : ℕ, j ≠ 0 → (List.set [(3 : ℝ), 4] 0 v)[j]? = [(3 : ℝ), 4][j]? :=
  ⟨⟨by simp, le_refl 1⟩,
    claim_C9_frame 0 1 0 1 [(3 : ℝ), 4] 0 (by simp) (le_refl 1)⟩

/-- C10: a call over an empty index range (start_n > end_n) returns 0
and stores 0 at the (valid) slot idx; the loop body never runs, so no
series term is evaluated — the conclusion holds for every x and ε. -/
theorem claim_C10_empty_range (x ε : ℝ) (start_n end_n : ℤ) (l : List ℝ)
    (idx : ℕ) (hidx : idx < l.length) (h : end_n < start_n) :
    calculate_partial_sum x start_n end_n ε l idx = some (0, l.set idx 0) := by
  unfold calculate_partial_sum
  rw [sumRangeLoop_of_gt x ε end_n start_n 0 h]
  simp [hidx]

theorem claim_C10_witness :
    (0 < [(5 : ℝ)].length ∧ (0 : ℤ) < 1) ∧
      calculate_partial_sum 0 1 0 1 [(5 : ℝ)] 0 =
        some (0, List.set [(5 : ℝ)] 0 0) :=
  ⟨⟨by simp, by decide⟩,
    claim_C10_empty_range 0 1 1 0 [(5 : ℝ)] 0 (by simp) (by decide)⟩

/-! ### Control value and analytical sum -/

/-- C7: get_control_value fails (math.log rejects a nonpositive
argument) exactly when sin(x/2) ≤ 0, and returns −ln(2·sin(x/2))
whenever sin(x/2) > 0. -/
theorem claim_C7_control_value (x : ℝ) :
    (Real.sin (x / 2) ≤ 0 → get_control_value x = none) ∧
      (0 < Real.sin (x / 2) →
        get_control_value x = some (-Real.log (2 * Real.sin (x / 2)))) := by
  constructor
  · intro h
    rw [get_control_value, if_pos (by linarith)]
  · intro h
    rw [get_control_value, if_neg (by push_neg; linarith)]

theorem claim_C7_witness :
    0 < Real.sin (Real.pi / 2) ∧
      get_control_value Real.pi =
        some (-Real.log (2 * Real.sin (Real.pi / 2))) := by
  have h : 0 < Real.sin (Real.pi / 2) := by
    rw [Real.sin_pi_div_two]
    norm_num
  exact ⟨h, (claim_C7_control_value Real.pi).2 h⟩

lemma isclose_self (a : ℝ) : isclose a a := by
  rw [isclose, sub_self, abs_zero]
  exact le_max_right _ _

/-- C8: calculate_analytical_sum returns −ln 2 whenever x is close to π
under math.isclose's default relative tolerance 1e-9, otherwise it
returns get_control_value x; in particular at x = π it returns −ln 2. -/
theorem claim_C8_analytical_sum (x : ℝ) :
    (isclose x Real.pi → calculate_analytical_sum x = some (-Real.log 2)) ∧
      (¬ isclose x Real.pi →
        calculate_analytical_sum x = get_control_value x) ∧
      calculate_analytical_sum Real.pi = some (-Real.log 2) := by
  refine ⟨?_, ?_, ?_⟩
  · intro h
    rw [calculate_analytical_sum, if_pos h]
  · intro h
    rw [calculate_analytical_sum, if_neg h]
  · rw [calculate_analytical_sum, if_pos (isclose_self Real.pi)]

theorem claim_C8_witness :
    isclose Real.pi Real.pi ∧
      calculate_analytical_sum Real.pi = some (-Real.log 2) :=
  ⟨isclose_self Real.pi, (claim_C8_analytical_sum Real.pi).1 (isclose_self Real.pi)⟩

/-! ### Behaviour for num_threads ≤ 0 -/

/-- C6 fails as stated: with num_threads = −1 (and any x, ε) the
naive multi-threaded variant does not raise — `range(-1)` is empty and
`[0.0] * -1` is `[]`, so it returns `sum([]) = 0`, a numeric result. -/
theorem claim_C6_counterexample :
    calculate_series_sum_multi_threaded 0 1 (-1) = some 0 := by
  rw [calculate_series_sum_multi_threaded, if_neg (by decide)]
  have h0 : (-1 : ℤ).toNat = 0 := rfl
  rw [h0]
  simp [runThreads]

/-- C6 (amended): for num_threads = 0 both variants raise
(ZeroDivisionError at the chunk-size division), and for
num_threads < 0 the thread-pool variant raises (ThreadPoolExecutor
rejects a nonpositive max_workers) while the naive variant silently
returns 0. -/
theorem claim_C6_nonpositive_threads (x ε : ℝ) (num_threads : ℤ)
    (h : num_threads ≤ 0) :
    calculate_with_threadpool x ε num_threads = none ∧
      calculate_series_sum_multi_threaded x ε 0 = none ∧
      (num_threads < 0 →
        calculate_series_sum_multi_threaded x ε num_threads = some 0) := by
  refine ⟨?_, ?_, ?_⟩
  · rw [calculate_with_threadpool]
    rcases eq_or_lt_of_le h with rfl | hlt
    · rw [if_pos rfl]
    · rw [if_neg (by omega), if_pos hlt]
  · rw [calculate_series_sum_multi_threaded, if_pos rfl]
  · intro hlt
    rw [calculate_series_sum_multi_threaded, if_neg (by omega),
      Int.toNat_eq_zero.mpr h]
    simp [runThreads]

theorem claim_C6_witness :
    (-1 : ℤ) ≤ 0 ∧
      (calculate_with_threadpool 0 1 (-1) = none ∧
        calculate_series_sum_multi_threaded 0 1 0 = none ∧
        ((-1 : ℤ) < 0 →
          calculate_series_sum_multi_threaded 0 1 (-1) = some 0)) :=
  ⟨by decide, claim_C6_nonpositive_threads 0 1 (-1) (by decide)⟩

/-! ### The chunk partition -/

lemma seriesMaxN_pos {ε : ℝ} (hε : 0 < ε) : 0 < seriesMaxN ε := by
  rw [seriesMaxN]
  have h : (0 : ℤ) ≤ ⌈1 / ε⌉ := Int.ceil_nonneg (by positivity)
  omega

lemma chunk_size_nonneg {ε : ℝ} (hε : 0 < ε) {t : ℤ} (ht : 1 ≤ t) :
    0 ≤ Int.fdiv (seriesMaxN ε) t := by
  rw [Int.fdiv_eq_ediv _ (show (0 : ℤ) ≤ t by omega)]
  exact Int.ediv_nonneg (le_of_lt (seriesMaxN_pos hε)) (by omega)

lemma chunk_size_mul_le {ε : ℝ} (hε : 0 < ε) {t : ℤ} (ht : 1 ≤ t) :
    t * Int.fdiv (seriesMaxN ε) t ≤ seriesMaxN ε := by
  rw [Int.fdiv_eq_ediv _ (show (0 : ℤ) ≤ t by omega)]
  have h1 := Int.ediv_add_emod (seriesMaxN ε) t
  have h2 := Int.emod_nonneg (seriesMaxN ε) (show t ≠ 0 by omega)
  linarith

lemma chunkStart_one_le {cs : ℤ} (hcs : 0 ≤ cs) (i : ℕ) :
    1 ≤ chunkStart cs i := by
  rw [chunkStart]
  have h : (0 : ℤ) ≤ (i : ℤ) * cs := mul_nonneg (Int.natCast_nonneg i) hcs
  linarith

lemma chunk_contiguous (cs mn t : ℤ) (i : ℕ) (h : (i : ℤ) < t - 1) :
    chunkEnd cs mn t i + 1 = chunkStart cs (i + 1) := by
  rw [chunkEnd, if_pos h, chunkStart]
  push_cast
  ring

lemma chunk_ordered (cs mn t : ℤ) (hcs : 0 ≤ cs) (i j : ℕ) (hij : i < j)
    (hj : (j : ℤ) < t) : chunkEnd cs mn t i < chunkStart cs j := by
  rw [chunkEnd, if_pos (by omega), chunkStart]
  have h : ((i : ℤ) + 1) * cs ≤ (j : ℤ) * cs :=
    mul_le_mul_of_nonneg_right (by omega) hcs
  push_cast at h ⊢
  linarith

lemma Icc_glue (a b : ℤ) (ha : 0 ≤ a) (hab : a ≤ b) :
    Finset.Icc (a + 1) b ∪ Finset.Icc 1 a = Finset.Icc 1 b := by
  ext m
  simp only [Finset.mem_union, Finset.mem_Icc]
  omega

lemma chunk_cover (cs mn t : ℤ) (hcs : 0 ≤ cs) (ht : 1 ≤ t)
    (hmul : t * cs ≤ mn) :
    ∀ k : ℕ, (k : ℤ) ≤ t →
      (Finset.range k).biUnion
          (fun i => Finset.Icc (chunkStart cs i) (chunkEnd cs mn t i)) =
        Finset.Icc 1 (if (k : ℤ) < t then (k : ℤ) * cs else mn) := by
  intro k
  induction k with
  | zero =>
    intro _
    rw [if_pos (by omega)]
    ext m
    simp only [Finset.range_zero, Finset.biUnion_empty, Finset.not_mem_empty,
      Finset.mem_Icc, Nat.cast_zero, zero_mul]
    constructor
    · exact fun hf => hf.elim
    · intro hm
      omega
  | succ k ih =>
    intro hk1
    have hk : (k : ℤ) < t := by push_cast at hk1; omega
    rw [Finset.range_succ, Finset.biUnion_insert, ih (by omega), if_pos hk,
      chunkStart]
    by_cases hk2 : (k : ℤ) + 1 < t
    · rw [chunkEnd, if_pos (by omega), if_pos (by push_cast; omega)]
      have hle : (k : ℤ) * cs ≤ ((k : ℤ) + 1) * cs :=
        mul_le_mul_of_nonneg_right (by omega) hcs
      have ha : (0 : ℤ) ≤ (k : ℤ) * cs := mul_nonneg (Int.natCast_nonneg k) hcs
      push_cast
      exact Icc_glue _ _ ha hle
    · rw [chunkEnd, if_neg (by omega), if_neg (by push_cast; omega)]
      have hle : (k : ℤ) * cs ≤ t * cs :=
        mul_le_mul_of_nonneg_right (by omega) hcs
      have ha : (0 : ℤ) ≤ (k : ℤ) * cs := mul_nonneg (Int.natCast_nonneg k) hcs
      exact Icc_glue _ _ ha (by linarith)

/-- C3: for every ε > 0 and num_threads ≥ 1, the chunk bounds used by
both parallel variants (chunk_size = max_n fdiv num_threads, chunk i
running from i·chunk_size + 1 to (i+1)·chunk_size, the last chunk
ending at max_n) are contiguous, pairwise disjoint, and cover exactly
the integer interval [1, max_n]. -/
theorem claim_C3_partition {ε : ℝ} (hε : 0 < ε) {num_threads : ℤ}
    (ht : 1 ≤ num_threads) :
    (∀ i : ℕ, (i : ℤ) < num_threads - 1 →
        chunkEnd (Int.fdiv (seriesMaxN ε) num_threads) (seriesMaxN ε)
            num_threads i + 1 =
          chunkStart (Int.fdiv (seriesMaxN ε) num_threads) (i + 1)) ∧
      (∀ i j : ℕ, i ≠ j → (i : ℤ) < num_threads → (j : ℤ) < num_threads →
        Disjoint
          (Finset.Icc (chunkStart (Int.fdiv (seriesMaxN ε) num_threads) i)
            (chunkEnd (Int.fdiv (seriesMaxN ε) num_threads) (seriesMaxN ε)
              num_threads i))
          (Finset.Icc (chunkStart (Int.fdiv (seriesMaxN ε) num_threads) j)
            (chunkEnd (Int.fdiv (seriesMaxN ε) num_threads) (seriesMaxN ε)
              num_threads j))) ∧
      (Finset.range num_threads.toNat).biUnion
          (fun i =>
            Finset.Icc (chunkStart (Int.fdiv (seriesMaxN ε) num_threads) i)
              (chunkEnd (Int.fdiv (seriesMaxN ε) num_threads) (seriesMaxN ε)
                num_threads i)) =
        Finset.Icc 1 (seriesMaxN ε) := by
  have hcs := chunk_size_nonneg hε ht
  have hmul := chunk_size_mul_le hε ht
  have hdisj : ∀ i j : ℕ, i < j → (j : ℤ) < num_threads →
      Disjoint
        (Finset.Icc (chunkStart (Int.fdiv (seriesMaxN ε) num_threads) i)
          (chunkEnd (Int.fdiv (seriesMaxN ε) num_threads) (seriesMaxN ε)
            num_threads i))
        (Finset.Icc (chunkStart (Int.fdiv (seriesMaxN ε) num_threads) j)
          (chunkEnd (Int.fdiv (seriesMaxN ε) num_threads) (seriesMaxN ε)
            num_threads j)) := by
    intro i j hij hj
    have hord := chunk_ordered (Int.fdiv (seriesMaxN ε) num_threads)
      (seriesMaxN ε) num_threads hcs i j hij hj
    rw [Finset.disjoint_left]
    intro a ha hb
    rw [Finset.mem_Icc] at ha hb
    omega
  refine ⟨fun i h => chunk_contiguous _ _ _ i h, ?_, ?_⟩
  · intro i j hij hi hj
    rcases Nat.lt_or_ge i j with h | h
    · exact hdisj i j h hj
    · exact (hdisj j i (by omega) hi).symm
  · have htn : ((num_threads.toNat : ℤ)) = num_threads :=
      Int.toNat_of_nonneg (by omega)
    rw [chunk_cover _ _ _ hcs ht hmul num_threads.toNat (by omega),
      if_neg (by omega)]

theorem claim_C3_witness :
    (0 < (1 : ℝ) ∧ 1 ≤ (2 : ℤ)) ∧
      ((∀ i : ℕ, (i : ℤ) < 2 - 1 →
          chunkEnd (Int.fdiv (seriesMaxN 1) 2) (seriesMaxN 1) 2 i + 1 =
            chunkStart (Int.fdiv (seriesMaxN 1) 2) (i + 1)) ∧
        (∀ i j : ℕ, i ≠ j → (i : ℤ) < 2 → (j : ℤ) < 2 →
          Disjoint
            (Finset.Icc (chunkStart (Int.fdiv (seriesMaxN 1) 2) i)
              (chunkEnd (Int.fdiv (seriesMaxN 1) 2) (seriesMaxN 1) 2 i))
            (Finset.Icc (chunkStart (Int.fdiv (seriesMaxN 1) 2) j)
              (chunkEnd (Int.fdiv (seriesMaxN 1) 2) (seriesMaxN 1) 2 j))) ∧
        (Finset.range (2 : ℤ).toNat).biUnion
            (fun i =>
              Finset.Icc (chunkStart (Int.fdiv (seriesMaxN 1) 2) i)
                (chunkEnd (Int.fdiv (seriesMaxN 1) 2) (seriesMaxN 1) 2 i)) =
          Finset.Icc 1 (seriesMaxN 1)) :=
  ⟨⟨one_pos, by decide⟩, claim_C3_partition one_pos (by decide)⟩

/-! ### Equivalence of the two parallel variants -/

lemma getElem?_set_spec (l : List ℝ) (i j : ℕ) (a : ℝ) :
    (l.set i a)[j]? = if i = j ∧ j < l.length then some a else l[j]? := by
  rw [List.getElem?_set]
  split_ifs with h1 h2 h3 <;> simp_all

lemma foldl_set_spec (g : ℕ → ℝ) :
    ∀ (is : List ℕ) (l : List ℝ) (j : ℕ),
      (is.foldl (fun r i => r.set i (g i)) l)[j]? =
        if j ∈ is ∧ j < l.length then some (g j) else l[j]? := by
  intro is
  induction is with
  | nil =>
    intro l j
    simp
  | cons i is ih =>
    intro l j
    rw [List.foldl_cons, ih, List.length_set, getElem?_set_spec]
    by_cases h1 : j ∈ is <;> by_cases h2 : j < l.length <;>
      by_cases h3 : i = j <;> simp_all [List.mem_cons]
    · rw [if_neg (fun hc => h3 (Eq.symm hc))]
    · rw [if_neg (fun hc => absurd hc.2 (not_lt.mpr h2))]

lemma foldl_set_range_eq (g : ℕ → ℝ) (t : ℕ) :
    (List.range t).foldl (fun r i => r.set i (g i)) (List.replicate t 0) =
      (List.range t).map g := by
  apply List.ext_getElem?
  intro j
  rw [foldl_set_spec]
  by_cases hj : j < t
  · rw [if_pos ⟨List.mem_range.mpr hj, by simp [hj]⟩]
    simp [List.getElem?_map, List.getElem?_range, hj]
  · rw [if_neg (fun hc => hj (List.mem_range.mp hc.1))]
    have h1 : (List.replicate t (0 : ℝ))[j]? = none := by
      rw [List.getElem?_eq_none]
      simpa using not_lt.mp hj
    have h2 : ((List.range t).map g)[j]? = none := by
      rw [List.getElem?_eq_none]
      simpa using not_lt.mp hj
    rw [h1, h2]

lemma runThreads_sets (x ε : ℝ) (cs mn nt : ℤ) (hcs : 0 ≤ cs) :
    ∀ (is : List ℕ) (res : List ℝ), (∀ i ∈ is, i < res.length) →
      runThreads x ε cs mn nt is res =
        some (is.foldl (fun r i =>
          r.set i (sumRangeVal x ε (chunkEnd cs mn nt i) (chunkStart cs i) 0))
          res) := by
  intro is
  induction is with
  | nil =>
    intro res _
    rfl
  | cons i is ih =>
    intro res h
    have hi : i < res.length := h i (List.mem_cons_self i is)
    have hcps : calculate_partial_sum x (chunkStart cs i)
        (chunkEnd cs mn nt i) ε res i =
        some (sumRangeVal x ε (chunkEnd cs mn nt i) (chunkStart cs i) 0,
          res.set i (sumRangeVal x ε (chunkEnd cs mn nt i) (chunkStart cs i) 0)) := by
      unfold calculate_partial_sum
      rw [sumRangeLoop_eq_val x ε (chunkEnd cs mn nt i) (chunkStart cs i) 0
        (chunkStart_one_le hcs i)]
      simp [hi]
    rw [List.foldl_cons]
    simp only [runThreads, hcps]
    exact ih _ (fun j hj => by
      rw [List.length_set]
      exact h j (List.mem_cons_of_mem i hj))

lemma poolResults_eq (x ε : ℝ) (cs mn nt : ℤ) (hcs : 0 ≤ cs) :
    ∀ is : List ℕ,
      poolResults x ε cs mn nt is =
        some (is.map (fun i =>
          sumRangeVal x ε (chunkEnd cs mn nt i) (chunkStart cs i) 0)) := by
  intro is
  induction is with
  | nil => rfl
  | cons i is ih =>
    have hw : worker x ε (chunkStart cs i) (chunkEnd cs mn nt i) =
        some (sumRangeVal x ε (chunkEnd cs mn nt i) (chunkStart cs i) 0) := by
      rw [worker, sumRangeLoop_eq_val _ _ _ _ _ (chunkStart_one_le hcs i)]
    simp only [poolResults, hw, ih, List.map_cons]

/-- C4: for every x, ε > 0 and num_threads ≥ 1 the two parallel
variants agree: they build the same chunk plan, each chunk contributes
the same partial sum, and both add the per-chunk sums in chunk-index
order, so they return the same value. -/
theorem claim_C4_pool_equiv (x : ℝ) {ε : ℝ} (hε : 0 < ε) {num_threads : ℤ}
    (ht : 1 ≤ num_threads) :
    ∃ v : ℝ,
      calculate_series_sum_multi_threaded x ε num_threads = some v ∧
        calculate_with_threadpool x ε num_threads = some v := by
  have hcs := chunk_size_nonneg hε ht
  refine ⟨((List.range num_threads.toNat).map (fun i =>
    sumRangeVal x ε
      (chunkEnd (Int.fdiv (seriesMaxN ε) num_threads) (seriesMaxN ε)
        num_threads i)
      (chunkStart (Int.fdiv (seriesMaxN ε) num_threads) i) 0)).sum, ?_, ?_⟩
  · rw [calculate_series_sum_multi_threaded, if_neg (by omega),
      runThreads_sets x ε _ _ _ hcs (List.range num_threads.toNat)
        (List.replicate num_threads.toNat 0)
        (fun i hi => by simpa using List.mem_range.mp hi),
      foldl_set_range_eq (fun i =>
        sumRangeVal x ε
          (chunkEnd (Int.fdiv (seriesMaxN ε) num_threads) (seriesMaxN ε)
            num_threads i)
          (chunkStart (Int.fdiv (seriesMaxN ε) num_threads) i) 0)
        num_threads.toNat]
    rfl
  · rw [calculate_with_threadpool, if_neg (by omega), if_neg (by omega),
      poolResults_eq x ε _ _ _ hcs]
    rfl

theorem claim_C4_witness :
    (0 < (1 : ℝ) ∧ 1 ≤ (2 : ℤ)) ∧
      ∃ v : ℝ,
        calculate_series_sum_multi_threaded 0 1 2 = some v ∧
          calculate_with_threadpool 0 1 2 = some v :=
  ⟨⟨one_pos, by decide⟩, claim_C4_pool_equiv 0 one_pos (by decide)⟩
